import Mathlib

/-!
Verification of the CoNLL-2000 data-loading pipeline
(`nlp_architect/data/conll2000.py`).

The Python module is embedded shallowly:

* a text file is a `List String` of lines; a Python string is a `String`
  (its characters reached through `String.data`);
* Python dicts that are only ever inserted into in encounter order are
  association lists (`List (key × value)`), with `alookup` for `d[k]` /
  `d.get(k)` and `bump` for `d.update({k: d.get(k, 0) + 1})`;
* `sorted(..., key=lambda x: x[1], reverse=True)` is the stable descending
  sort by the second component, realised by `List.insertionSort rankLE`
  (CPython's sort is stable, also with `reverse=True`, so any stable sort
  with the same comparator is extensionally identical);
* numpy arrays are nested lists; `KeyError` (a `LookupError`) is `none`;
* collaborators that are not part of the sources (`pad_sentences` from
  neon, `get_paddedXY_sequence`, `load_word_embeddings`, the iterator
  classes) are modelled from their contracts in the specification and
  marked as such in their doc comments.
-/

namespace Conll

/-! ### Generic association-list (ordered dict) machinery -/

section AList

variable {α β : Type} [DecidableEq α]

/-- Lookup in an association list; `d[k]` on a Python dict is
`(alookup d k)` succeeding, `d.get(k, None)` is `alookup d k` itself. -/
def alookup : List (α × β) → α → Option β
  | [], _ => none
  | p :: d, k => if p.1 = k then some p.2 else alookup d k

/-- One counting step of the Python loop
`w_dict.update({w: w_dict.get(w, 0) + 1})`: an existing key keeps its
position and gets its value incremented, a new key is appended at the end
(CPython dicts preserve insertion order). -/
def bump : List (α × Nat) → α → List (α × Nat)
  | [], w => [(w, 1)]
  | p :: d, w => if p.1 = w then (p.1, p.2 + 1) :: d else p :: bump d w

/-- Keys of a stream in first-encounter order, starting from an
accumulator: the key order a Python dict ends up with after inserting the
stream left to right. -/
def dedupFAux (acc : List α) : List α → List α
  | [] => acc
  | w :: ws => dedupFAux (if w ∈ acc then acc else acc ++ [w]) ws

/-- Distinct elements of a stream in first-encounter order. -/
def dedupF (l : List α) : List α := dedupFAux [] l

end AList

/-! ### Vocabulary builder: `_sentences_to_ints` -/

/-- Python `w.lower()` (ASCII case folding applied per character). -/
def lower (s : String) : String := ⟨s.data.map Char.toLower⟩

/-- The optional case normalisation `_sentences_to_ints` applies, in both
its counting pass and its mapping pass: `w.lower() if lowercase else w`. -/
def norm (lowercase : Bool) (w : String) : String :=
  if lowercase then lower w else w

/-- The stream of (optionally lower-cased) tokens in the traversal order
of the two nested `for` loops of `_sentences_to_ints`. -/
def stream (texts : List (List String)) (lowercase : Bool) : List String :=
  texts.flatMap (fun sen => sen.map (norm lowercase))

/-- The counting dict `w_dict` of `_sentences_to_ints` after its first
pass, as an insertion-ordered association list. -/
def w_dict (texts : List (List String)) (lowercase : Bool) : List (String × Nat) :=
  (stream texts lowercase).foldl bump []

/-- The comparator of `sorted(w_dict.items(), key=lambda x: x[1],
reverse=True)`: larger counts first. -/
def rankLE {α : Type} (a b : α × Nat) : Prop := b.2 ≤ a.2

instance {α : Type} : DecidableRel (@rankLE α) :=
  fun a b => inferInstanceAs (Decidable (b.2 ≤ a.2))

instance {α : Type} : IsTotal (α × Nat) rankLE :=
  ⟨fun a b => Nat.le_total b.2 a.2⟩

instance {α : Type} : IsTrans (α × Nat) rankLE :=
  ⟨fun _ _ _ hab hbc => Nat.le_trans hbc hab⟩

/-- The list `sorted(w_dict.items(), key=lambda x: x[1], reverse=True)`.
CPython's sort is a stable sort, also under `reverse=True`, so it is
extensionally the stable insertion sort with the `rankLE` comparator. -/
def rankedWords (texts : List (List String)) (lowercase : Bool) : List (String × Nat) :=
  List.insertionSort rankLE (w_dict texts lowercase)

/-- Python `enumerate` over the ranked items, already flipped into
`vocab = {w: i for i, w in int_to_word}`: the pair at position `i` of the
ranked list becomes the entry `(word, i)`. -/
def assignIds {α : Type} : Nat → List (α × Nat) → List (α × Nat)
  | _, [] => []
  | i, p :: l => (p.1, i) :: assignIds (i + 1) l

/-- The vocabulary mapping built by `_sentences_to_ints`. -/
def vocabOf (texts : List (List String)) (lowercase : Bool) : List (String × Nat) :=
  assignIds 0 (rankedWords texts lowercase)

/-- Left-to-right traversal failing at the first `none`, like a Python
comprehension raising `KeyError` at the first missing key. -/
def mapOpt {β γ : Type} (f : β → Option γ) : List β → Option (List γ)
  | [] => some []
  | x :: xs =>
    match f x, mapOpt f xs with
    | some y, some ys => some (y :: ys)
    | _, _ => none

/-- The id-mapping pass of `_sentences_to_ints`:
`[[vocab[w.lower()] if lowercase else vocab[w] for w in sen] for sen in texts]`;
`none` models the `KeyError` (a `LookupError`) raised on a missing key. -/
def mapTokens (vocab : List (String × Nat)) (lowercase : Bool)
    (texts : List (List String)) : Option (List (List Nat)) :=
  mapOpt (fun sen => mapOpt (fun w => alookup vocab (norm lowercase w)) sen) texts

/-- `_sentences_to_ints(texts, lowercase)`: the integer id sequences and
the vocabulary. The Python default for `lowercase` is `True`, so `true`
is passed where the source relies on the default. -/
def sentences_to_ints (texts : List (List String)) (lowercase : Bool) :
    Option (List (List Nat)) × List (String × Nat) :=
  (mapTokens (vocabOf texts lowercase) lowercase texts, vocabOf texts lowercase)

/-- Claim C1, as a statement about `vocabOf`: dense contiguous ids
`0..N-1` over exactly the distinct normalised tokens, ordered by
descending occurrence count with ties broken by first-encounter order,
most frequent token at id `0`. -/
def C1Prop (texts : List (List String)) (lowercase : Bool) : Prop :=
  let V := vocabOf texts lowercase
  let S := stream texts lowercase
  (V.map Prod.snd = List.range V.length) ∧
  ((V.map Prod.fst).Nodup) ∧
  (∀ w, w ∈ V.map Prod.fst ↔ w ∈ S) ∧
  (V.length = S.toFinset.card) ∧
  (∀ wa ia wb ib, (wa, ia) ∈ V → (wb, ib) ∈ V → ia < ib →
      S.count wb ≤ S.count wa ∧
        (S.count wa = S.count wb → S.indexOf wa < S.indexOf wb)) ∧
  (∀ w0 w, (w0, 0) ∈ V → w ∈ S → S.count w ≤ S.count w0)

/-! ### Corpus parser: `parse_entries` -/

/-- Python `line.strip()` on the characters of a string: whitespace
removed from both ends. -/
def strip (s : List Char) : List Char :=
  ((s.dropWhile Char.isWhitespace).reverse.dropWhile Char.isWhitespace).reverse

/-- Python `[e.strip() for e in line.strip().split()]`: strip the line,
split it on whitespace runs into non-empty fields, and re-strip each
field (a no-op kept for fidelity). -/
def splitFields (line : String) : List String :=
  (((strip line.data).splitOnP Char.isWhitespace).filter (fun t => t ≠ [])).map
    (fun t => (⟨strip t⟩ : String))

/-- Python `len(line.strip()) == 0`. -/
def isBlank (line : String) : Bool := (strip line.data).length == 0

/-- Length of the shortest row, `0` for no rows: the number of columns
Python `zip(*rows)` produces. -/
def minRowLen {α : Type} : List (List α) → Nat
  | [] => 0
  | r :: rs => rs.foldl (fun m t => min m t.length) r.length

/-- Python `list(zip(*rows))`: transposition truncated at the shortest
row; each produced column has one entry per row. -/
def pyZip {α : Type} (rows : List (List α)) : List (List α) :=
  (List.range (minRowLen rows)).map (fun j => rows.filterMap (fun r => r[j]?))

/-- The line loop of `parse_entries`, carrying the current `block`; a
final unterminated block is never flushed, as in the source. -/
def parseLoop : List String → List (List String) → List (List (List String))
  | [], _ => []
  | line :: rest, block =>
    if isBlank line then
      (if 1 < block.length then [pyZip block] else []) ++ parseLoop rest []
    else
      parseLoop rest (block ++ [splitFields line])

/-- `parse_entries(filepath)`, with the file contents given as the list
of its lines. -/
def parse_entries (lines : List String) : List (List (List String)) :=
  parseLoop lines []

/-! ### Character feature builder: `create_char_features` -/

/-- Modelled from the spec: the per-row policy of neon's `pad_sentences`
(an external collaborator, not part of the sources; spec §3, §8): a row
longer than `T` keeps its last `T` entries, a shorter row is left-padded
with `0` so the output length is exactly `T`. -/
def padRow (T : Nat) (s : List Nat) : List Nat :=
  List.replicate (T - (s.drop (s.length - T)).length) 0 ++ s.drop (s.length - T)

/-- Modelled from the spec: neon's `pad_sentences(rows, sentence_length=T)`
(external collaborator, spec §6 and §8): the rectangular array whose rows
are the inputs padded/truncated to length `T` by `padRow`. -/
def pad_sentences (rows : List (List Nat)) (T : Nat) : List (List Nat) :=
  rows.map (padRow T)

/-- The shared mutable state of `create_char_features`: the accumulated
character vocabulary `char_dict` and the running counter `char_id`. -/
structure CharSt where
  dict : List (Char × Nat)
  nextId : Nat
deriving DecidableEq

/-- One character of the inner loop: `char_dict.get(c, None)`, inserting
`c` at the next free id when absent. -/
def charStep (st : CharSt) (c : Char) : CharSt × Nat :=
  match alookup st.dict c with
  | some i => (st, i)
  | none => (⟨st.dict ++ [(c, st.nextId)], st.nextId + 1⟩, st.nextId)

/-- The loop `for c in w` building `char_vector`. -/
def charsOf : CharSt → List Char → CharSt × List Nat
  | st, [] => (st, [])
  | st, c :: cs =>
    let p := charStep st c
    let q := charsOf p.1 cs
    (q.1, p.2 :: q.2)

/-- One word: `char_vector = [1] + char_vector + [2]`. -/
def charWord (st : CharSt) (w : String) : CharSt × List Nat :=
  let q := charsOf st w.data
  (q.1, 1 :: q.2 ++ [2])

/-- The loop `for w in s` building `char_sents`. -/
def charWords : CharSt → List String → CharSt × List (List Nat)
  | st, [] => (st, [])
  | st, w :: ws =>
    let p := charWord st w
    let q := charWords p.1 ws
    (q.1, p.2 :: q.2)

/-- One sentence: per-word padding to `word_length`, then either
truncation `char_sents[:sentence_length]` or `vstack` of leading zero
rows up to `sentence_length`. -/
def charSent (SL WL : Nat) (st : CharSt) (s : List String) : CharSt × List (List Nat) :=
  let q := charWords st s
  let rows := pad_sentences q.2 WL
  if SL < rows.length then (q.1, rows.take SL)
  else (q.1, List.replicate (SL - rows.length) (List.replicate WL 0) ++ rows)

/-- The loop `for s in sentences`. -/
def charSents (SL WL : Nat) : CharSt → List (List String) → CharSt × List (List (List Nat))
  | st, [] => (st, [])
  | st, s :: ss =>
    let p := charSent SL WL st s
    let q := charSents SL WL p.1 ss
    (q.1, p.2 :: q.2)

/-- `create_char_features(sentences, sentence_length, word_length)`: the
final character vocabulary (stored into `self.vocabs['char_rnn']`) and
the stacked 3-d array `char_sentences`. `char_id` starts at `3`. -/
def create_char_features (sentences : List (List String)) (SL WL : Nat) :
    CharSt × List (List (List Nat)) :=
  charSents SL WL ⟨[], 3⟩ sentences

/-- All characters of a corpus in the traversal order of the three
nested loops of `create_char_features`. -/
def charStream (sentences : List (List String)) : List Char :=
  sentences.flatMap (fun s => s.flatMap String.data)

/-- The row a word contributes under a finished character dictionary
`d`: `[1] + char ids + [2]`, padded per word to width `WL`. -/
def encodeWord (d : List (Char × Nat)) (WL : Nat) (w : String) : List Nat :=
  padRow WL (1 :: w.data.map (fun c => (alookup d c).getD 0) ++ [2])

/-- Monotonicity of dictionary states: every binding of the first is a
binding of the second (the builder only ever appends fresh keys). -/
def DictLE (st1 st2 : CharSt) : Prop :=
  ∀ c i, alookup st1.dict c = some i → alookup st2.dict c = some i

/-- Claim C7, as a statement about `create_char_features`: character ids
start at 3 and are assigned in first-encounter order during the single
pass; each word row of the output is the padded `[1] + char ids + [2]`
encoding of the corresponding word. -/
def C7Prop (sents : List (List String)) (SL WL : Nat) : Prop :=
  let r := create_char_features sents SL WL
  let d := r.1.dict
  let CS := charStream sents
  ((d.map Prod.fst).Nodup) ∧
  (∀ c, c ∈ d.map Prod.fst ↔ c ∈ CS) ∧
  ((d.map Prod.fst).Pairwise (fun a b => CS.indexOf a < CS.indexOf b)) ∧
  (d.map Prod.snd = List.range' 3 d.length) ∧
  (∀ i (hi : i < sents.length), (sents.get ⟨i, hi⟩).length ≤ SL →
    r.2[i]? = some
      (List.replicate (SL - (sents.get ⟨i, hi⟩).length) (List.replicate WL 0) ++
        (sents.get ⟨i, hi⟩).map (encodeWord d WL)))

/-! ### Feature assembler: `gen_iterators` -/

/-- The constructor state of `CONLL2000.__init__` read by the iterator
pipeline (paths and download bookkeeping belong to external
collaborators). `vocab_size` is stored by `__init__` like the rest. -/
structure CONLL2000 where
  sentence_length : Nat
  vocab_size : Nat
  use_pos : Bool
  use_chars : Bool
  chars_len : Nat
  use_w2v : Bool
deriving DecidableEq

/-- Modelled from the spec: `get_paddedXY_sequence` (from
`nlp_architect.utils.generic`, not part of the sources; spec 4.3):
parallel rectangular arrays of shape `(N, sentence_length)` obtained by
applying the aligner's pre-padding/truncation policy row by row; the
callers here always pass `shuffle=False`, under which no permutation is
applied, so the shuffle branch is not modelled. -/
def get_paddedXY_sequence (X y : List (List Nat)) (T : Nat) :
    List (List Nat) × List (List Nat) :=
  (X.map (padRow T), y.map (padRow T))

/-- Column `k` of the transposed sentence list: `list(zip(*ts))[k]`.
Python raises `IndexError` when the column does not exist; the theorems
below assume well-formed (three-column) sentences, under which the `[]`
default is never taken. -/
def col (k : Nat) (ts : List (List (List String))) : List (List String) :=
  (pyZip ts).getD k []

/-- One entry of a padded id row turned into an embedding vector in the
`use_w2v` branch. Float vectors carry no arithmetic here and are
modelled as integer lists. Ids `0..2` give `np.zeros(emb_size)`;
otherwise the id is shifted by 3 and looked up in the inverted
vocabulary (`x_vocab_is[w - 3]`; for the dense ids the pipeline produces
the inverse lookup cannot miss), and the lower-cased word is queried in
the embedding dict, missing words giving zeros. -/
def w2vRow (vocab : List (String × Nat)) (w2v_dict : String → Option (List Int))
    (emb_size : Nat) (w : Nat) : List Int :=
  if w ≤ 2 then List.replicate emb_size 0
  else
    match alookup (vocab.map (fun p => (p.2, p.1))) (w - 3) with
    | none => List.replicate emb_size 0
    | some word => (w2v_dict (lower word)).getD (List.replicate emb_size 0)

/-- The two kinds of `x` payload a `TaggedTextSequence` receives:
integer id rows, or rows of embedding vectors (`vec_input=True`). -/
inductive XRows where
  | ids (rows : List (List Nat))
  | vecs (rows : List (List (List Int)))
deriving DecidableEq

/-- Modelled from the spec: the external batch-iterator collaborator
`TaggedTextSequence` (spec 6) is recorded by the arrays and settings it
wraps. Fields in order: `steps`, `x`, `y`, `num_classes`, `vec_input`. -/
structure TaggedTextSequence where
  steps : Nat
  x : XRows
  y : Option (List (List Nat))
  num_classes : Option Nat
  vec_input : Bool
deriving DecidableEq

/-- Modelled from the spec: the `_data_dict` entries are a
`MultiSequenceDataIterator` over several streams or the single
`TaggedTextSequence` when only one stream was requested. -/
inductive DataIter where
  | single (t : TaggedTextSequence)
  | multi (ts : List TaggedTextSequence)
deriving DecidableEq

/-- Everything `gen_iterators` produces and stores on the object:
`self.vocabs['token']`, `self.y_vocab`, `self.vocabs['pos']`,
`self.vocabs['char_rnn']`, `self.y_size`, and the two `_data_dict`
entries. -/
structure GenResult where
  token_vocab : List (String × Nat)
  y_vocab : List (String × Nat)
  pos_vocab : Option (List (String × Nat))
  char_vocab : Option (List (Char × Nat))
  y_size : Nat
  train : DataIter
  test : DataIter
deriving DecidableEq

/-- `if len(train_iters) > 1: MultiSequenceDataIterator(train_iters)
else: train_iters[0]`, with the iterator list split as first :: rest. -/
def wrapIters (first : TaggedTextSequence) (rest : List TaggedTextSequence) : DataIter :=
  if rest.isEmpty then DataIter.single first else DataIter.multi (first :: rest)

/-- The iterator list a `_data_dict` entry wraps. -/
def itersOf : DataIter → List TaggedTextSequence
  | DataIter.single t => [t]
  | DataIter.multi ts => ts

/-- `gen_iterators` on already-parsed train and test sentence lists
(`load_data` is file I/O performed by external collaborators).
`w2v_dict` and `emb_size` stand for the result of the external
`load_word_embeddings` (spec 6). -/
def gen_iterators (cfg : CONLL2000) (train_set test_set : List (List (List String)))
    (w2v_dict : String → Option (List Int)) (emb_size : Nat) : GenResult :=
  let num_train_samples := train_set.length
  let sents := col 0 train_set ++ col 0 test_set
  let X0 := (sentences_to_ints sents false).1.getD []
  let X_vocab := (sentences_to_ints sents false).2
  let labels := col 2 train_set ++ col 2 test_set
  let y0 := (sentences_to_ints labels false).1.getD []
  let y_vocab := (sentences_to_ints labels false).2
  let P := get_paddedXY_sequence X0 y0 cfg.sentence_length
  let X := P.1
  let y := P.2
  let y_size := y_vocab.length + 1
  let firstTrain : TaggedTextSequence :=
    if cfg.use_w2v then
      ⟨cfg.sentence_length,
        XRows.vecs ((X.map (fun xs => xs.map (w2vRow X_vocab w2v_dict emb_size))).take
          num_train_samples),
        some (y.take num_train_samples), some y_size, true⟩
    else
      ⟨cfg.sentence_length, XRows.ids (X.take num_train_samples),
        some (y.take num_train_samples), some y_size, false⟩
  let firstTest : TaggedTextSequence :=
    if cfg.use_w2v then
      ⟨cfg.sentence_length,
        XRows.vecs ((X.map (fun xs => xs.map (w2vRow X_vocab w2v_dict emb_size))).drop
          num_train_samples),
        some (y.drop num_train_samples), some y_size, true⟩
    else
      ⟨cfg.sentence_length, XRows.ids (X.drop num_train_samples),
        some (y.drop num_train_samples), some y_size, false⟩
  let posPack :
      List TaggedTextSequence × List TaggedTextSequence × Option (List (String × Nat)) :=
    if cfg.use_pos then
      let pos_sents := col 1 train_set ++ col 1 test_set
      let Xp0 := (sentences_to_ints pos_sents true).1.getD []
      let Xp := (get_paddedXY_sequence Xp0 y cfg.sentence_length).1
      ([⟨cfg.sentence_length, XRows.ids (Xp.take num_train_samples), none, none, false⟩],
        [⟨cfg.sentence_length, XRows.ids (Xp.drop num_train_samples), none, none, false⟩],
        some (sentences_to_ints pos_sents true).2)
    else ([], [], none)
  let charPack :
      List TaggedTextSequence × List TaggedTextSequence × Option (List (Char × Nat)) :=
    if cfg.use_chars then
      let cf := create_char_features sents cfg.sentence_length cfg.chars_len
      let char_rows := cf.2.map List.flatten
      ([⟨cfg.chars_len * cfg.sentence_length,
          XRows.ids (char_rows.take num_train_samples), none, none, false⟩],
        [⟨cfg.chars_len * cfg.sentence_length,
          XRows.ids (char_rows.drop num_train_samples), none, none, false⟩],
        some cf.1.dict)
    else ([], [], none)
  ⟨X_vocab, y_vocab, posPack.2.2, charPack.2.2, y_size,
    wrapIters firstTrain (posPack.1 ++ charPack.1),
    wrapIters firstTest (posPack.2.1 ++ charPack.2.1)⟩

/-- The id row of one sentence under a finished vocabulary. -/
def rowIds (vocab : List (String × Nat)) (lc : Bool) (sen : List String) : List Nat :=
  sen.map (fun w => (alookup vocab (norm lc w)).getD 0)

/-- Claim C4, as a statement about `gen_iterators`: vocabularies are
built over the concatenated train and test sentences, every produced
feature stream is partitioned at the original train sentence count, and
for every row index all full streams carry data derived from the same
sentence of the concatenated corpus. -/
def C4Prop (cfg : CONLL2000) (train_set test_set : List (List (List String)))
    (w2v_dict : String → Option (List Int)) (emb_size : Nat) : Prop :=
  let g := gen_iterators cfg train_set test_set w2v_dict emb_size
  let n := train_set.length
  let sents := (train_set ++ test_set).map (fun s => s.getD 0 [])
  let labels := (train_set ++ test_set).map (fun s => s.getD 2 [])
  let pos_sents := (train_set ++ test_set).map (fun s => s.getD 1 [])
  let SL := cfg.sentence_length
  let aX := (sents.map (rowIds (vocabOf sents false) false)).map (padRow SL)
  let aY := (labels.map (rowIds (vocabOf labels false) false)).map (padRow SL)
  let aP := (pos_sents.map (rowIds (vocabOf pos_sents true) true)).map (padRow SL)
  let aC := (create_char_features sents SL cfg.chars_len).2.map List.flatten
  let aW := aX.map (fun xs => xs.map (w2vRow (vocabOf sents false) w2v_dict emb_size))
  (g.token_vocab = vocabOf sents false) ∧
  (g.y_vocab = vocabOf labels false) ∧
  (cfg.use_pos = true → g.pos_vocab = some (vocabOf pos_sents true)) ∧
  ((itersOf g.train).map (fun t => t.x) =
    (if cfg.use_w2v then XRows.vecs (aW.take n) else XRows.ids (aX.take n)) ::
      ((if cfg.use_pos = true then [XRows.ids (aP.take n)] else []) ++
        (if cfg.use_chars = true then [XRows.ids (aC.take n)] else []))) ∧
  ((itersOf g.test).map (fun t => t.x) =
    (if cfg.use_w2v then XRows.vecs (aW.drop n) else XRows.ids (aX.drop n)) ::
      ((if cfg.use_pos = true then [XRows.ids (aP.drop n)] else []) ++
        (if cfg.use_chars = true then [XRows.ids (aC.drop n)] else []))) ∧
  ((itersOf g.train).map (fun t => t.y) =
    some (aY.take n) :: List.replicate ((itersOf g.train).length - 1) none) ∧
  ((itersOf g.test).map (fun t => t.y) =
    some (aY.drop n) :: List.replicate ((itersOf g.test).length - 1) none) ∧
  (aX.length = sents.length ∧ aY.length = sents.length ∧
    aP.length = sents.length ∧ aC.length = sents.length) ∧
  (∀ i, i < sents.length →
    aX[i]? = some (padRow SL (rowIds (vocabOf sents false) false (sents.getD i []))) ∧
    aY[i]? = some (padRow SL (rowIds (vocabOf labels false) false (labels.getD i []))) ∧
    aP[i]? = some (padRow SL (rowIds (vocabOf pos_sents true) true (pos_sents.getD i []))))

end Conll

namespace Conll

section AListLemmas

variable {α β : Type} [DecidableEq α]

theorem alookup_eq_none {d : List (α × β)} {k : α} :
    alookup d k = none ↔ k ∉ d.map Prod.fst := by
  induction d with
  | nil => simp [alookup]
  | cons p d ih =>
    by_cases h : p.1 = k
    · simp [alookup, h]
    · simp only [alookup, if_neg h, ih, List.map_cons, List.mem_cons]
      constructor
      · intro hk hc
        rcases hc with hc | hc
        · exact h hc.symm
        · exact hk hc
      · intro hk hc
        exact hk (Or.inr hc)

theorem mem_of_alookup_eq_some {d : List (α × β)} {k : α} {v : β}
    (h : alookup d k = some v) : (k, v) ∈ d := by
  induction d with
  | nil => simp [alookup] at h
  | cons p d ih =>
    by_cases hp : p.1 = k
    · rw [alookup, if_pos hp] at h
      have : p = (k, v) := by
        cases p
        simp_all
      exact this ▸ List.mem_cons_self _ _
    · rw [alookup, if_neg hp] at h
      exact List.mem_cons_of_mem _ (ih h)

theorem alookup_isSome {d : List (α × β)} {k : α} :
    (alookup d k).isSome ↔ k ∈ d.map Prod.fst := by
  rcases h : alookup d k with _ | v
  · simpa using alookup_eq_none.1 h
  · simp only [Option.isSome_some, true_iff]
    exact List.mem_map.2 ⟨(k, v), mem_of_alookup_eq_some h, rfl⟩

theorem alookup_of_mem {d : List (α × β)} {k : α} {v : β}
    (hnd : (d.map Prod.fst).Nodup) (h : (k, v) ∈ d) :
    alookup d k = some v := by
  induction d with
  | nil => simp at h
  | cons p d ih =>
    simp only [List.map_cons, List.nodup_cons] at hnd
    rcases List.mem_cons.1 h with h | h
    · subst h; simp [alookup]
    · have hk : k ∈ d.map Prod.fst :=
        List.mem_map.2 ⟨(k, v), h, rfl⟩
      have hne : p.1 ≠ k := fun he => hnd.1 (he ▸ hk)
      simp [alookup, hne, ih hnd.2 h]

theorem alookup_append (d1 d2 : List (α × β)) (k : α) :
    alookup (d1 ++ d2) k =
      match alookup d1 k with
      | some v => some v
      | none => alookup d2 k := by
  induction d1 with
  | nil => simp [alookup]
  | cons p d ih =>
    by_cases h : p.1 = k <;> simp [alookup, h, ih]

theorem bump_map_fst (d : List (α × Nat)) (w : α) :
    (bump d w).map Prod.fst =
      if w ∈ d.map Prod.fst then d.map Prod.fst else d.map Prod.fst ++ [w] := by
  induction d with
  | nil => simp [bump]
  | cons p d ih =>
    by_cases h : p.1 = w
    · simp [bump, h]
    · have : w ∈ p.1 :: d.map Prod.fst ↔ w ∈ d.map Prod.fst := by
        simp [Ne.symm h]
      simp only [bump, if_neg h, List.map_cons, this, ih]
      by_cases hm : w ∈ d.map Prod.fst <;> simp [hm]

theorem alookup_bump_self (d : List (α × Nat)) (w : α) :
    alookup (bump d w) w = some ((alookup d w).getD 0 + 1) := by
  induction d with
  | nil => simp [bump, alookup]
  | cons p d ih =>
    by_cases h : p.1 = w <;> simp [bump, alookup, h, ih]

theorem alookup_bump_ne (d : List (α × Nat)) (w k : α) (hne : k ≠ w) :
    alookup (bump d w) k = alookup d k := by
  have hwk : ¬w = k := fun h => hne h.symm
  induction d with
  | nil => simp [bump, alookup, hwk]
  | cons p d ih =>
    by_cases h : p.1 = w
    · subst h
      simp [bump, alookup, hwk]
    · by_cases hk : p.1 = k <;> simp [bump, alookup, h, hk, ih, hne]

theorem foldl_bump_map_fst (S : List α) :
    ∀ d : List (α × Nat), (S.foldl bump d).map Prod.fst = dedupFAux (d.map Prod.fst) S := by
  induction S with
  | nil => intro d; simp [dedupFAux]
  | cons w S ih =>
    intro d
    simp only [List.foldl_cons, dedupFAux, ih, bump_map_fst]

theorem alookup_foldl_bump (S : List α) :
    ∀ (d : List (α × Nat)) (k : α),
      (alookup (S.foldl bump d) k).getD 0 = (alookup d k).getD 0 + S.count k := by
  induction S with
  | nil => intro d k; simp
  | cons w S ih =>
    intro d k
    by_cases h : k = w
    · subst h
      simp [List.count_cons, ih, alookup_bump_self]
      omega
    · simp [List.count_cons, h, ih, alookup_bump_ne d w k h]

theorem mem_dedupFAux (l : List α) :
    ∀ (acc : List α) (x : α), x ∈ dedupFAux acc l ↔ x ∈ acc ∨ x ∈ l := by
  induction l with
  | nil => intro acc x; simp [dedupFAux]
  | cons w l ih =>
    intro acc x
    by_cases h : w ∈ acc
    · simp only [dedupFAux, if_pos h, ih]
      constructor
      · rintro (hx | hx)
        · exact Or.inl hx
        · exact Or.inr (List.mem_cons_of_mem _ hx)
      · rintro (hx | hx)
        · exact Or.inl hx
        · rcases List.mem_cons.1 hx with rfl | hx
          · exact Or.inl h
          · exact Or.inr hx
    · simp only [dedupFAux, if_neg h, ih, List.mem_append, List.mem_singleton,
        List.mem_cons]
      tauto

theorem nodup_dedupFAux (l : List α) :
    ∀ acc : List α, acc.Nodup → (dedupFAux acc l).Nodup := by
  induction l with
  | nil => intro acc h; exact h
  | cons w l ih =>
    intro acc h
    by_cases hm : w ∈ acc
    · simpa [dedupFAux, hm] using ih acc h
    · refine ih _ ?_
      simpa [List.nodup_append, hm] using h

theorem mem_dedupF {l : List α} {x : α} : x ∈ dedupF l ↔ x ∈ l := by
  simp [dedupF, mem_dedupFAux]

theorem nodup_dedupF (l : List α) : (dedupF l).Nodup :=
  nodup_dedupFAux l [] List.nodup_nil

theorem dedupFAux_append (l1 l2 : List α) :
    ∀ acc, dedupFAux acc (l1 ++ l2) = dedupFAux (dedupFAux acc l1) l2 := by
  induction l1 with
  | nil => intro acc; simp [dedupFAux]
  | cons w l ih => intro acc; simp [dedupFAux, ih]

theorem dedupF_concat (l : List α) (w : α) :
    dedupF (l ++ [w]) =
      if w ∈ dedupF l then dedupF l else dedupF l ++ [w] := by
  simp [dedupF, dedupFAux_append, dedupFAux]

theorem pairwise_indexOf_dedupF (l : List α) :
    (dedupF l).Pairwise (fun a b => l.indexOf a < l.indexOf b) := by
  induction l using List.reverseRecOn with
  | nil => simp [dedupF, dedupFAux]
  | append_singleton l w ih =>
    rw [dedupF_concat]
    by_cases h : w ∈ dedupF l
    · simp only [if_pos h]
      refine ih.imp_of_mem ?_
      intro a b ha hb hab
      have ha' : a ∈ l := mem_dedupF.1 ha
      have hb' : b ∈ l := mem_dedupF.1 hb
      rwa [List.indexOf_append_of_mem ha', List.indexOf_append_of_mem hb']
    · simp only [if_neg h]
      rw [List.pairwise_append]
      refine ⟨ih.imp_of_mem ?_, List.pairwise_singleton _ _, ?_⟩
      · intro a b ha hb hab
        have ha' : a ∈ l := mem_dedupF.1 ha
        have hb' : b ∈ l := mem_dedupF.1 hb
        rwa [List.indexOf_append_of_mem ha', List.indexOf_append_of_mem hb']
      · intro a ha b hb
        rcases List.mem_singleton.1 hb with rfl
        have ha' : a ∈ l := mem_dedupF.1 ha
        have hw : b ∉ l := fun hc => h (mem_dedupF.2 hc)
        rw [List.indexOf_append_of_mem ha',
          List.indexOf_append_of_not_mem hw]
        have := List.indexOf_lt_length.2 ha'
        simp only [List.indexOf_cons_self]
        omega

end AListLemmas

/-! ### Lemmas on positions and sublists -/

theorem sublist_pair_of_get {β : Type} (l : List β) (p q : Nat)
    (hp : p < l.length) (hq : q < l.length) (hpq : p < q) :
    List.Sublist [l.get ⟨p, hp⟩, l.get ⟨q, hq⟩] l := by
  induction l generalizing p q with
  | nil => exact absurd hp (Nat.not_lt_zero p)
  | cons a t ih =>
    cases p with
    | zero =>
      cases q with
      | zero => omega
      | succ q1 =>
        exact List.Sublist.cons₂ a (List.singleton_sublist.2 (t.get_mem _ _))
    | succ p1 =>
      cases q with
      | zero => omega
      | succ q1 =>
        exact List.Sublist.cons a (ih p1 q1 _ _ (by omega))

theorem lt_of_pair_sublist_nodup {β : Type} {l : List β} {x y : β}
    (hnd : l.Nodup) (hs : List.Sublist [x, y] l) (p q : Nat)
    (hp : p < l.length) (hq : q < l.length)
    (hx : l.get ⟨p, hp⟩ = x) (hy : l.get ⟨q, hq⟩ = y) : p < q := by
  induction l generalizing p q with
  | nil => simp at hs
  | cons a t ih =>
    have hna : a ∉ t := (List.nodup_cons.1 hnd).1
    have hnt : t.Nodup := (List.nodup_cons.1 hnd).2
    cases hs with
    | cons _ h =>
      have hxt : x ∈ t := h.subset (by simp)
      have hyt : y ∈ t := h.subset (by simp)
      cases p with
      | zero =>
        have hax : a = x := by simpa using hx
        rw [← hax] at hxt
        exact absurd hxt hna
      | succ p1 =>
        cases q with
        | zero =>
          have hay : a = y := by simpa using hy
          rw [← hay] at hyt
          exact absurd hyt hna
        | succ q1 =>
          have := ih hnt h p1 q1 (by simpa using hp) (by simpa using hq) hx hy
          omega
    | cons₂ _ h =>
      have hyt : y ∈ t := List.singleton_sublist.1 h
      cases q with
      | zero =>
        have hay : x = y := by simpa using hy
        rw [← hay] at hyt
        exact absurd hyt hna
      | succ q1 =>
        cases p with
        | zero => omega
        | succ p1 =>
          have hxm : x ∈ t := by
            have hg : t.get ⟨p1, by simpa using hp⟩ = x := by simpa using hx
            rw [← hg]
            exact t.get_mem _ _
          exact absurd hxm hna

/-! ### Lemmas about `assignIds` -/

theorem length_assignIds {α : Type} (l : List (α × Nat)) :
    ∀ k, (assignIds k l).length = l.length := by
  induction l with
  | nil => intro k; rfl
  | cons p t ih => intro k; simp [assignIds, ih]

theorem map_fst_assignIds {α : Type} (l : List (α × Nat)) :
    ∀ k, (assignIds k l).map Prod.fst = l.map Prod.fst := by
  induction l with
  | nil => intro k; rfl
  | cons p t ih => intro k; simp [assignIds, ih]

theorem map_snd_assignIds {α : Type} (l : List (α × Nat)) :
    ∀ k, (assignIds k l).map Prod.snd = List.range' k l.length := by
  induction l with
  | nil => intro k; rfl
  | cons p t ih => intro k; simp [assignIds, ih, List.range']

theorem mem_assignIds {α : Type} (l : List (α × Nat)) :
    ∀ (k : Nat) (w : α) (j : Nat),
      (w, j) ∈ assignIds k l ↔
        ∃ i, ∃ h : i < l.length, j = k + i ∧ (l.get ⟨i, h⟩).1 = w := by
  induction l with
  | nil => intro k w j; simp [assignIds]
  | cons p t ih =>
    intro k w j
    simp only [assignIds, List.mem_cons, Prod.mk.injEq, ih]
    constructor
    · rintro (⟨rfl, rfl⟩ | ⟨i, h, rfl, hw⟩)
      · exact ⟨0, by simp, by omega, rfl⟩
      · exact ⟨i + 1, by simpa using h, by omega, hw⟩
    · rintro ⟨i, h, rfl, hw⟩
      cases i with
      | zero => left; exact ⟨hw.symm, by omega⟩
      | succ i1 =>
        right
        exact ⟨i1, by simpa using h, by omega, hw⟩

/-! ### Lemmas about the word-counting pass -/

theorem w_dict_map_fst (texts : List (List String)) (lc : Bool) :
    (w_dict texts lc).map Prod.fst = dedupF (stream texts lc) :=
  foldl_bump_map_fst (stream texts lc) []

theorem w_dict_keys_nodup (texts : List (List String)) (lc : Bool) :
    ((w_dict texts lc).map Prod.fst).Nodup := by
  rw [w_dict_map_fst]; exact nodup_dedupF _

theorem w_dict_nodup (texts : List (List String)) (lc : Bool) :
    (w_dict texts lc).Nodup :=
  (w_dict_keys_nodup texts lc).of_map

theorem mem_w_dict_keys (texts : List (List String)) (lc : Bool) (w : String) :
    w ∈ (w_dict texts lc).map Prod.fst ↔ w ∈ stream texts lc := by
  rw [w_dict_map_fst]; exact mem_dedupF

theorem alookup_w_dict (texts : List (List String)) (lc : Bool) (w : String) :
    (alookup (w_dict texts lc) w).getD 0 = (stream texts lc).count w := by
  simpa [alookup] using alookup_foldl_bump (stream texts lc) [] w

theorem snd_eq_count_of_mem_w_dict {texts : List (List String)} {lc : Bool}
    {w : String} {c : Nat} (h : (w, c) ∈ w_dict texts lc) :
    c = (stream texts lc).count w := by
  have := alookup_of_mem (w_dict_keys_nodup texts lc) h
  have h2 := alookup_w_dict texts lc w
  rw [this] at h2
  simpa using h2

theorem w_dict_pairwise_indexOf (texts : List (List String)) (lc : Bool) :
    (w_dict texts lc).Pairwise
      (fun p q => (stream texts lc).indexOf p.1 < (stream texts lc).indexOf q.1) := by
  have h := pairwise_indexOf_dedupF (stream texts lc)
  rw [← w_dict_map_fst texts lc] at h
  exact List.Pairwise.of_map Prod.fst (fun a b hab => hab) h

/-! ### Lemmas about the ranked word list -/

theorem rankedWords_perm (texts : List (List String)) (lc : Bool) :
    (rankedWords texts lc).Perm (w_dict texts lc) :=
  List.perm_insertionSort rankLE (w_dict texts lc)

theorem rankedWords_nodup (texts : List (List String)) (lc : Bool) :
    (rankedWords texts lc).Nodup :=
  ((rankedWords_perm texts lc).nodup_iff).2 (w_dict_nodup texts lc)

theorem rankedWords_keys_nodup (texts : List (List String)) (lc : Bool) :
    ((rankedWords texts lc).map Prod.fst).Nodup :=
  (((rankedWords_perm texts lc).map Prod.fst).nodup_iff).2 (w_dict_keys_nodup texts lc)

theorem rankedWords_sorted (texts : List (List String)) (lc : Bool) :
    (rankedWords texts lc).Pairwise rankLE :=
  List.sorted_insertionSort rankLE (w_dict texts lc)

theorem snd_eq_count_of_mem_rankedWords {texts : List (List String)} {lc : Bool}
    {p : String × Nat} (h : p ∈ rankedWords texts lc) :
    p.2 = (stream texts lc).count p.1 := by
  have hm : p ∈ w_dict texts lc := (rankedWords_perm texts lc).subset h
  cases p
  exact snd_eq_count_of_mem_w_dict hm

theorem mem_vocab_keys (texts : List (List String)) (lc : Bool) (w : String) :
    w ∈ (vocabOf texts lc).map Prod.fst ↔ w ∈ stream texts lc := by
  rw [vocabOf, map_fst_assignIds]
  rw [((rankedWords_perm texts lc).map Prod.fst).mem_iff]
  exact mem_w_dict_keys texts lc w

theorem fst_unique_of_snd {β : Type} {l : List (β × Nat)}
    (h : (l.map Prod.snd).Nodup) {a b : β} {v : Nat}
    (ha : (a, v) ∈ l) (hb : (b, v) ∈ l) : a = b := by
  induction l with
  | nil => simp at ha
  | cons p t ih =>
    have hvp : p.2 ∉ t.map Prod.snd := (List.nodup_cons.1 (by simpa using h)).1
    have hnt : (t.map Prod.snd).Nodup := (List.nodup_cons.1 (by simpa using h)).2
    rcases List.mem_cons.1 ha with ha1 | ha1 <;> rcases List.mem_cons.1 hb with hb1 | hb1
    · rw [← ha1] at hb1
      injection hb1 with h1 h2
      exact h1.symm
    · exfalso
      apply hvp
      rw [← ha1]
      exact List.mem_map.2 ⟨(b, v), hb1, rfl⟩
    · exfalso
      apply hvp
      rw [← hb1]
      exact List.mem_map.2 ⟨(a, v), ha1, rfl⟩
    · exact ih hnt ha1 hb1

/-! ### Claim C1 -/

/-- C1: for every collection of sentences and every value of the
lowercase flag, the vocabulary returned by `_sentences_to_ints` assigns
dense contiguous ids `0..N-1` to the `N` distinct (optionally
lower-cased) tokens, ordered by descending occurrence count with ties
broken by first-encounter order, so that the most frequent token receives
id `0` and there are no gaps or duplicate ids. -/
theorem conll_C1 (texts : List (List String)) (lc : Bool) : C1Prop texts lc := by
  simp only [C1Prop]
  have hlen_ranked : (vocabOf texts lc).length = (rankedWords texts lc).length := by
    rw [vocabOf, length_assignIds]
  have hget : ∀ wa ia, (wa, ia) ∈ vocabOf texts lc →
      ∃ h : ia < (rankedWords texts lc).length,
        ((rankedWords texts lc).get ⟨ia, h⟩).1 = wa := by
    intro wa ia ha
    rw [vocabOf] at ha
    obtain ⟨i, hi, hji, hfst⟩ := (mem_assignIds _ 0 wa ia).1 ha
    have : ia = i := by omega
    subst this
    exact ⟨hi, hfst⟩
  have hcnt : ∀ i (h : i < (rankedWords texts lc).length),
      ((rankedWords texts lc).get ⟨i, h⟩).2 =
        (stream texts lc).count ((rankedWords texts lc).get ⟨i, h⟩).1 :=
    fun i h => snd_eq_count_of_mem_rankedWords ((rankedWords texts lc).get_mem _ _)
  -- the main ordering fact, shared by the last two conjuncts
  have H5 : ∀ wa ia wb ib, (wa, ia) ∈ vocabOf texts lc →
      (wb, ib) ∈ vocabOf texts lc → ia < ib →
      (stream texts lc).count wb ≤ (stream texts lc).count wa ∧
        ((stream texts lc).count wa = (stream texts lc).count wb →
          (stream texts lc).indexOf wa < (stream texts lc).indexOf wb) := by
    intro wa ia wb ib ha hb hlt
    obtain ⟨hia, hfa⟩ := hget wa ia ha
    obtain ⟨hib, hfb⟩ := hget wb ib hb
    have hca : ((rankedWords texts lc).get ⟨ia, hia⟩).2 = (stream texts lc).count wa := by
      rw [hcnt ia hia, hfa]
    have hcb : ((rankedWords texts lc).get ⟨ib, hib⟩).2 = (stream texts lc).count wb := by
      rw [hcnt ib hib, hfb]
    have hsorted := List.pairwise_iff_get.1 (rankedWords_sorted texts lc)
      ⟨ia, hia⟩ ⟨ib, hib⟩ hlt
    rw [rankLE] at hsorted
    constructor
    · rw [hca, hcb] at hsorted
      exact hsorted
    · intro hties
      have hkeys : ((vocabOf texts lc).map Prod.fst).Nodup := by
        rw [vocabOf, map_fst_assignIds]
        exact rankedWords_keys_nodup texts lc
      have hne : wa ≠ wb := by
        intro he
        subst he
        have h1 := alookup_of_mem hkeys ha
        have h2 := alookup_of_mem hkeys hb
        rw [h1] at h2
        have : ia = ib := by injection h2
        omega
      have hpam : (rankedWords texts lc).get ⟨ia, hia⟩ ∈ w_dict texts lc :=
        (rankedWords_perm texts lc).subset ((rankedWords texts lc).get_mem _ _)
      have hpbm : (rankedWords texts lc).get ⟨ib, hib⟩ ∈ w_dict texts lc :=
        (rankedWords_perm texts lc).subset ((rankedWords texts lc).get_mem _ _)
      obtain ⟨fa, hfa_get⟩ := List.mem_iff_get.1 hpam
      obtain ⟨fb, hfb_get⟩ := List.mem_iff_get.1 hpbm
      have hpair_ne : (rankedWords texts lc).get ⟨ia, hia⟩ ≠
          (rankedWords texts lc).get ⟨ib, hib⟩ := by
        intro he
        exact hne (by rw [← hfa, ← hfb, he])
      rcases Nat.lt_or_ge fa fb with hfab | hfba
      · have := List.pairwise_iff_get.1 (w_dict_pairwise_indexOf texts lc) fa fb hfab
        rw [hfa_get, hfb_get, hfa, hfb] at this
        exact this
      · have hfb_lt_fa : (fb : Nat) < fa := by
          rcases Nat.eq_or_lt_of_le hfba with he | hl
          · exfalso
            apply hpair_ne
            rw [← hfa_get, ← hfb_get]
            congr 1
            exact (Fin.ext he.symm : fa = fb).symm ▸ rfl
          · exact hl
        exfalso
        have hsub : List.Sublist
            [(rankedWords texts lc).get ⟨ib, hib⟩, (rankedWords texts lc).get ⟨ia, hia⟩]
            (w_dict texts lc) := by
          have := sublist_pair_of_get (w_dict texts lc) fb fa fb.isLt fa.isLt hfb_lt_fa
          rw [show (w_dict texts lc).get ⟨(fb : Nat), fb.isLt⟩ = (w_dict texts lc).get fb
              from rfl] at this
          rw [show (w_dict texts lc).get ⟨(fa : Nat), fa.isLt⟩ = (w_dict texts lc).get fa
              from rfl] at this
          rw [hfa_get, hfb_get] at this
          exact this
        have hr : rankLE ((rankedWords texts lc).get ⟨ib, hib⟩)
            ((rankedWords texts lc).get ⟨ia, hia⟩) := by
          rw [rankLE, hca, hcb, hties]
        have hS : List.Sublist
            [(rankedWords texts lc).get ⟨ib, hib⟩, (rankedWords texts lc).get ⟨ia, hia⟩]
            (rankedWords texts lc) :=
          List.pair_sublist_insertionSort hr hsub
        have := lt_of_pair_sublist_nodup (rankedWords_nodup texts lc) hS ib ia hib hia
          rfl rfl
        omega
  refine ⟨?_, ?_, ?_, ?_, H5, ?_⟩
  · rw [vocabOf, map_snd_assignIds, length_assignIds, List.range_eq_range']
  · rw [vocabOf, map_fst_assignIds]
    exact rankedWords_keys_nodup texts lc
  · exact mem_vocab_keys texts lc
  · calc (vocabOf texts lc).length
        = (rankedWords texts lc).length := hlen_ranked
      _ = (w_dict texts lc).length := (rankedWords_perm texts lc).length_eq
      _ = ((w_dict texts lc).map Prod.fst).length := (List.length_map _ _).symm
      _ = (dedupF (stream texts lc)).length := by rw [w_dict_map_fst]
      _ = (dedupF (stream texts lc)).toFinset.card :=
          (List.toFinset_card_of_nodup (nodup_dedupF _)).symm
      _ = (stream texts lc).toFinset.card := by
          congr 1
          ext a
          simp [List.mem_toFinset, mem_dedupF]
  · intro w0 w h0 hw
    have hids : ((vocabOf texts lc).map Prod.snd).Nodup := by
      rw [vocabOf, map_snd_assignIds]
      exact List.nodup_range' _ _
    have hw_keys : w ∈ (vocabOf texts lc).map Prod.fst := (mem_vocab_keys texts lc w).2 hw
    obtain ⟨p, hp, hpw⟩ := List.mem_map.1 hw_keys
    rcases Nat.eq_zero_or_pos p.2 with hz | hpos
    · have hp0 : (p.1, 0) ∈ vocabOf texts lc := by
        rw [← hz]
        exact hp
      have : p.1 = w0 := fst_unique_of_snd hids hp0 h0
      rw [← hpw, this]
    · have hpm : (p.1, p.2) ∈ vocabOf texts lc := hp
      have := (H5 w0 0 p.1 p.2 h0 hpm hpos).1
      rwa [hpw] at this

/-- Witness for C1 at a concrete input. -/
theorem conll_C1_witness : C1Prop [["b"], ["a", "b"]] false :=
  conll_C1 [["b"], ["a", "b"]] false

/-! ### Lemmas about `mapOpt` -/

theorem mapOpt_eq_none {β γ : Type} {f : β → Option γ} {l : List β}
    (h : ∃ x ∈ l, f x = none) : mapOpt f l = none := by
  induction l with
  | nil =>
    obtain ⟨x, hx, _⟩ := h
    simp at hx
  | cons x xs ih =>
    obtain ⟨z, hz, hnone⟩ := h
    rcases List.mem_cons.1 hz with rfl | hz2
    · cases hr : mapOpt f xs <;> simp [mapOpt, hnone, hr]
    · have hxs := ih ⟨z, hz2, hnone⟩
      cases hfx : f x <;> simp [mapOpt, hfx, hxs]

theorem mapOpt_isSome {β γ : Type} {f : β → Option γ} {l : List β}
    (h : ∀ x ∈ l, (f x).isSome) : ∃ r, mapOpt f l = some r := by
  induction l with
  | nil => exact ⟨[], rfl⟩
  | cons x xs ih =>
    obtain ⟨y, hy⟩ := Option.isSome_iff_exists.1 (h x (List.mem_cons_self x xs))
    obtain ⟨r, hr⟩ := ih (fun z hz => h z (List.mem_cons_of_mem x hz))
    exact ⟨y :: r, by simp [mapOpt, hy, hr]⟩

/-! ### Claims C3 and C9 -/

/-- C3: if any (normalised) token handled by the id-mapping pass of
`_sentences_to_ints` is missing from the lookup table, the pass fails
with a `KeyError` (a `LookupError`), modelled as `none`, rather than
producing a result. (Inside `_sentences_to_ints` itself, the table built
by the counting pass makes this branch unreachable; see C9.) -/
theorem conll_C3 (vocab : List (String × Nat)) (texts : List (List String)) (lc : Bool)
    (h : ∃ w ∈ stream texts lc, alookup vocab w = none) :
    mapTokens vocab lc texts = none := by
  obtain ⟨w, hw, hnone⟩ := h
  simp only [stream, List.mem_flatMap, List.mem_map] at hw
  obtain ⟨sen, hsen, w0, hw0, heq⟩ := hw
  apply mapOpt_eq_none
  refine ⟨sen, hsen, ?_⟩
  apply mapOpt_eq_none
  exact ⟨w0, hw0, by rw [heq]; exact hnone⟩

/-- Witness for C3: the empty table and a one-token corpus. -/
theorem conll_C3_witness :
    (∃ w ∈ stream [["a"]] false, alookup ([] : List (String × Nat)) w = none) ∧
      mapTokens [] false [["a"]] = none :=
  ⟨by decide, conll_C3 [] [["a"]] false (by decide)⟩

/-- C9: `_sentences_to_ints` never raises a lookup error: the counting
pass and the id-mapping pass apply the same case normalisation, so every
key looked up during mapping was inserted during counting. -/
theorem conll_C9 (texts : List (List String)) (lc : Bool) :
    ∃ ids, (sentences_to_ints texts lc).1 = some ids := by
  simp only [sentences_to_ints, mapTokens]
  apply mapOpt_isSome
  intro sen hsen
  have hall : ∀ w ∈ sen, (alookup (vocabOf texts lc) (norm lc w)).isSome := by
    intro w hw
    apply alookup_isSome.2
    apply (mem_vocab_keys texts lc (norm lc w)).2
    simp only [stream, List.mem_flatMap]
    exact ⟨sen, hsen, List.mem_map.2 ⟨w, hw, rfl⟩⟩
  obtain ⟨r, hr⟩ := @mapOpt_isSome String Nat
    (fun w => alookup (vocabOf texts lc) (norm lc w)) sen hall
  simp [hr]

/-! ### Lemmas about the parser -/

theorem foldl_min_le_init {α : Type} (rs : List (List α)) :
    ∀ a : Nat, rs.foldl (fun m t => min m t.length) a ≤ a := by
  induction rs with
  | nil => intro a; exact Nat.le_refl a
  | cons t rs ih =>
    intro a
    exact Nat.le_trans (ih (min a t.length)) (Nat.min_le_left _ _)

theorem foldl_min_le_mem {α : Type} (rs : List (List α)) :
    ∀ (a : Nat) (t : List α), t ∈ rs → rs.foldl (fun m t => min m t.length) a ≤ t.length := by
  induction rs with
  | nil => intro a t ht; simp at ht
  | cons r rs ih =>
    intro a t ht
    rcases List.mem_cons.1 ht with rfl | ht2
    · exact Nat.le_trans (foldl_min_le_init rs _) (Nat.min_le_right _ _)
    · exact ih _ t ht2

theorem minRowLen_le {α : Type} (rows : List (List α)) (r : List α) (hr : r ∈ rows) :
    minRowLen rows ≤ r.length := by
  cases rows with
  | nil => simp at hr
  | cons r0 rs =>
    rcases List.mem_cons.1 hr with rfl | hr2
    · exact foldl_min_le_init rs r.length
    · exact foldl_min_le_mem rs r0.length r hr2

theorem filterMap_length_of_isSome {α β : Type} {f : α → Option β} {l : List α}
    (h : ∀ x ∈ l, (f x).isSome) : (l.filterMap f).length = l.length := by
  induction l with
  | nil => rfl
  | cons x xs ih =>
    obtain ⟨y, hy⟩ := Option.isSome_iff_exists.1 (h x (List.mem_cons_self x xs))
    simp [hy, ih (fun z hz => h z (List.mem_cons_of_mem x hz))]

theorem pyZip_col_length {α : Type} (rows : List (List α)) {c : List α}
    (hc : c ∈ pyZip rows) : c.length = rows.length := by
  simp only [pyZip, List.mem_map, List.mem_range] at hc
  obtain ⟨j, hj, rfl⟩ := hc
  apply filterMap_length_of_isSome
  intro r hr
  have : j < r.length := Nat.lt_of_lt_of_le hj (minRowLen_le rows r hr)
  simp [List.getElem?_eq_getElem this]

theorem parseLoop_mem {lines : List String} :
    ∀ {block : List (List String)} {sent : List (List String)},
      sent ∈ parseLoop lines block → ∃ b, sent = pyZip b := by
  induction lines with
  | nil => intro block sent h; simp [parseLoop] at h
  | cons line rest ih =>
    intro block sent h
    by_cases hb : isBlank line
    · rw [parseLoop, if_pos hb] at h
      rcases List.mem_append.1 h with h2 | h2
      · by_cases hlen : 1 < block.length
        · rw [if_pos hlen] at h2
          exact ⟨block, (List.mem_singleton.1 h2)⟩
        · rw [if_neg hlen] at h2
          simp at h2
      · exact ih h2
    · rw [parseLoop, if_neg hb] at h
      exact ih h

/-! ### Claim C5 -/

/-- C5: every sentence produced by `parse_entries` consists of
equal-length columns: all tuples obtained by transposing a block have the
same length (one entry per block line). -/
theorem conll_C5 (lines : List String) (sent : List (List String))
    (hs : sent ∈ parse_entries lines) :
    ∀ c1 ∈ sent, ∀ c2 ∈ sent, c1.length = c2.length := by
  obtain ⟨b, rfl⟩ := parseLoop_mem hs
  intro c1 h1 c2 h2
  rw [pyZip_col_length b h1, pyZip_col_length b h2]

/-- Witness for C5 on a concrete two-line file. -/
theorem conll_C5_witness :
    ([["a", "c"], ["b", "d"]] ∈ parse_entries ["a b", "c d", ""]) ∧
      ∀ c1 ∈ [["a", "c"], ["b", "d"]], ∀ c2 ∈ [["a", "c"], ["b", "d"]],
        c1.length = c2.length :=
  ⟨by decide, conll_C5 ["a b", "c d", ""] [["a", "c"], ["b", "d"]] (by decide)⟩

/-! ### Claim C6 -/

theorem parseLoop_no_blank {ls : List String} (h : ∀ l ∈ ls, isBlank l = false) :
    ∀ block, parseLoop ls block = [] := by
  induction ls with
  | nil => intro block; rfl
  | cons line rest ih =>
    intro block
    have hline : isBlank line = false := h line (List.mem_cons_self _ _)
    rw [parseLoop, if_neg (by simp [hline])]
    exact ih (fun l hl => h l (List.mem_cons_of_mem _ hl)) _

theorem parseLoop_split {ls1 ls2 : List String} {bl : String}
    (hbl : isBlank bl = true) (h1 : ∀ l ∈ ls1, isBlank l = false) :
    ∀ block, parseLoop (ls1 ++ bl :: ls2) block =
      (if 1 < (block ++ ls1.map splitFields).length
        then [pyZip (block ++ ls1.map splitFields)] else []) ++ parseLoop ls2 [] := by
  induction ls1 with
  | nil =>
    intro block
    rw [List.nil_append, parseLoop, if_pos hbl]
    simp
  | cons line rest ih =>
    intro block
    have hline : isBlank line = false := h1 line (List.mem_cons_self _ _)
    rw [List.cons_append, parseLoop, if_neg (by simp [hline])]
    rw [ih (fun l hl => h1 l (List.mem_cons_of_mem _ hl)) (block ++ [splitFields line])]
    simp

/-- C6: `parse_entries` appends a transposed sentence exactly when a
blank line is read and the accumulated block has more than one line;
single-line blocks are discarded, and so is a final block not followed by
a blank line. -/
theorem conll_C6 (ls1 ls2 : List String) (bl : String)
    (hbl : isBlank bl = true) (h1 : ∀ l ∈ ls1, isBlank l = false) :
    parse_entries (ls1 ++ bl :: ls2) =
      (if 1 < ls1.length then [pyZip (ls1.map splitFields)] else []) ++ parse_entries ls2
    ∧ parse_entries ls1 = [] := by
  constructor
  · rw [parse_entries, parseLoop_split hbl h1 []]
    simp [parse_entries]
  · exact parseLoop_no_blank h1 []

/-! ### Lemmas about the character feature builder -/

theorem padRow_length (T : Nat) (s : List Nat) : (padRow T s).length = T := by
  simp only [padRow, List.length_append, List.length_replicate, List.length_drop]
  omega

theorem DictLE.rfl (st : CharSt) : DictLE st st := fun _ _ h => h

theorem DictLE.trans {s1 s2 s3 : CharSt} (h1 : DictLE s1 s2) (h2 : DictLE s2 s3) :
    DictLE s1 s3 := fun c i h => h2 c i (h1 c i h)

theorem charStep_le (st : CharSt) (c : Char) : DictLE st (charStep st c).1 := by
  intro c2 i h
  rcases ha : alookup st.dict c with _ | j
  · simp only [charStep, ha]
    rw [alookup_append, h]
  · simpa [charStep, ha] using h

theorem charStep_self (st : CharSt) (c : Char) :
    alookup ((charStep st c).1).dict c = some (charStep st c).2 := by
  rcases ha : alookup st.dict c with _ | j
  · simp only [charStep, ha]
    rw [alookup_append, ha]
    simp [alookup]
  · simp [charStep, ha]

theorem charsOf_le (cs : List Char) : ∀ st : CharSt, DictLE st (charsOf st cs).1 := by
  induction cs with
  | nil => intro st; exact DictLE.rfl st
  | cons c cs ih =>
    intro st
    exact (charStep_le st c).trans (ih _)

theorem charWord_le (st : CharSt) (w : String) : DictLE st (charWord st w).1 :=
  charsOf_le w.data st

theorem charWords_le (ws : List String) : ∀ st : CharSt, DictLE st (charWords st ws).1 := by
  induction ws with
  | nil => intro st; exact DictLE.rfl st
  | cons w ws ih =>
    intro st
    exact (charWord_le st w).trans (ih _)

theorem charSent_fst (SL WL : Nat) (st : CharSt) (s : List String) :
    (charSent SL WL st s).1 = (charWords st s).1 := by
  simp only [charSent]
  split <;> rfl

theorem charSent_le (SL WL : Nat) (st : CharSt) (s : List String) :
    DictLE st (charSent SL WL st s).1 := by
  rw [charSent_fst]
  exact charWords_le s st

theorem charSents_le (SL WL : Nat) (ss : List (List String)) :
    ∀ st : CharSt, DictLE st (charSents SL WL st ss).1 := by
  induction ss with
  | nil => intro st; exact DictLE.rfl st
  | cons s ss ih =>
    intro st
    exact (charSent_le SL WL st s).trans (ih _)

theorem charsOf_ids (cs : List Char) : ∀ st stF : CharSt,
    DictLE (charsOf st cs).1 stF →
    (charsOf st cs).2 = cs.map (fun c => (alookup stF.dict c).getD 0) := by
  induction cs with
  | nil => intro st stF _; rfl
  | cons c cs ih =>
    intro st stF h
    have hq : DictLE (charsOf (charStep st c).1 cs).1 stF := h
    have h1 : DictLE (charStep st c).1 stF := (charsOf_le cs _).trans hq
    have hhead : alookup stF.dict c = some (charStep st c).2 :=
      h1 c _ (charStep_self st c)
    show (charStep st c).2 :: (charsOf (charStep st c).1 cs).2 =
      ((alookup stF.dict c).getD 0) :: cs.map (fun c => (alookup stF.dict c).getD 0)
    rw [hhead, ih _ _ hq]
    rfl

theorem charWord_row (st stF : CharSt) (w : String) (h : DictLE (charWord st w).1 stF) :
    (charWord st w).2 = 1 :: w.data.map (fun c => (alookup stF.dict c).getD 0) ++ [2] := by
  show 1 :: (charsOf st w.data).2 ++ [2] = _
  rw [charsOf_ids w.data st stF h]

theorem charWords_rows (ws : List String) : ∀ st stF : CharSt,
    DictLE (charWords st ws).1 stF →
    (charWords st ws).2 =
      ws.map (fun w => 1 :: w.data.map (fun c => (alookup stF.dict c).getD 0) ++ [2]) := by
  induction ws with
  | nil => intro st stF _; rfl
  | cons w ws ih =>
    intro st stF h
    have hq : DictLE (charWords (charWord st w).1 ws).1 stF := h
    have hw : DictLE (charWord st w).1 stF := (charWords_le ws _).trans hq
    show (charWord st w).2 :: (charWords (charWord st w).1 ws).2 = _
    rw [List.map_cons, charWord_row _ _ _ hw, ih _ _ hq]

theorem charSent_rows (SL WL : Nat) (st stF : CharSt) (s : List String)
    (h : DictLE (charSent SL WL st s).1 stF) :
    (charSent SL WL st s).2 =
      if SL < s.length then (s.take SL).map (encodeWord stF.dict WL)
      else List.replicate (SL - s.length) (List.replicate WL 0) ++
        s.map (encodeWord stF.dict WL) := by
  have hws : DictLE (charWords st s).1 stF := by
    rw [← charSent_fst SL WL st s]
    exact h
  have hrows : pad_sentences (charWords st s).2 WL = s.map (encodeWord stF.dict WL) := by
    rw [pad_sentences, charWords_rows s st stF hws, List.map_map]
    rfl
  simp only [charSent]
  rw [hrows, List.length_map]
  by_cases hc : SL < s.length
  · rw [if_pos hc, if_pos hc]
    show (s.map (encodeWord stF.dict WL)).take SL = (s.take SL).map (encodeWord stF.dict WL)
    exact (List.map_take _ _ _).symm
  · rw [if_neg hc, if_neg hc]

theorem charSent_snd_length (SL WL : Nat) (st : CharSt) (s : List String) :
    (charSent SL WL st s).2.length = SL := by
  simp only [charSent]
  by_cases hc : SL < (pad_sentences (charWords st s).2 WL).length
  · rw [if_pos hc]
    show ((pad_sentences (charWords st s).2 WL).take SL).length = SL
    rw [List.length_take]
    omega
  · rw [if_neg hc]
    show (List.replicate _ _ ++ _).length = SL
    rw [List.length_append, List.length_replicate]
    omega

theorem charSent_row_width (SL WL : Nat) (st : CharSt) (s : List String) :
    ∀ row ∈ (charSent SL WL st s).2, row.length = WL := by
  intro row hrow
  have hpad : ∀ r ∈ pad_sentences (charWords st s).2 WL, r.length = WL := by
    intro r hr
    obtain ⟨r0, _, rfl⟩ := List.mem_map.1 hr
    exact padRow_length WL r0
  simp only [charSent] at hrow
  by_cases hc : SL < (pad_sentences (charWords st s).2 WL).length
  · rw [if_pos hc] at hrow
    exact hpad row ((List.take_sublist SL _).subset hrow)
  · rw [if_neg hc] at hrow
    rcases List.mem_append.1 hrow with h2 | h2
    · rw [List.eq_of_mem_replicate h2]
      exact List.length_replicate WL 0
    · exact hpad row h2

theorem charSents_snd_length (SL WL : Nat) (ss : List (List String)) :
    ∀ st : CharSt, (charSents SL WL st ss).2.length = ss.length := by
  induction ss with
  | nil => intro st; rfl
  | cons s ss ih =>
    intro st
    show ((charSent SL WL st s).2 :: _).length = ss.length + 1
    rw [List.length_cons, ih]

theorem charSents_shape (SL WL : Nat) (ss : List (List String)) :
    ∀ st : CharSt, ∀ m ∈ (charSents SL WL st ss).2,
      m.length = SL ∧ ∀ row ∈ m, row.length = WL := by
  induction ss with
  | nil => intro st m hm; simp [charSents] at hm
  | cons s ss ih =>
    intro st m hm
    rcases List.mem_cons.1 hm with rfl | h2
    · exact ⟨charSent_snd_length SL WL st s, charSent_row_width SL WL st s⟩
    · exact ih _ m h2

theorem charSents_getElem (SL WL : Nat) (ss : List (List String)) :
    ∀ (st stF : CharSt), DictLE (charSents SL WL st ss).1 stF →
    ∀ i (hi : i < ss.length),
      (charSents SL WL st ss).2[i]? = some
        (if SL < (ss.get ⟨i, hi⟩).length
          then ((ss.get ⟨i, hi⟩).take SL).map (encodeWord stF.dict WL)
          else List.replicate (SL - (ss.get ⟨i, hi⟩).length) (List.replicate WL 0) ++
            (ss.get ⟨i, hi⟩).map (encodeWord stF.dict WL)) := by
  induction ss with
  | nil => intro st stF _ i hi; exact absurd hi (Nat.not_lt_zero i)
  | cons s ss ih =>
    intro st stF h i hi
    have hq : DictLE (charSents SL WL (charSent SL WL st s).1 ss).1 stF := h
    cases i with
    | zero =>
      show ((charSent SL WL st s).2 :: (charSents SL WL (charSent SL WL st s).1 ss).2)[0]?
        = _
      simp only [List.getElem?_cons_zero]
      have hsent : DictLE (charSent SL WL st s).1 stF :=
        (charSents_le SL WL ss _).trans hq
      rw [charSent_rows SL WL st stF s hsent]
      rfl
    | succ i1 =>
      show ((charSent SL WL st s).2 :: (charSents SL WL (charSent SL WL st s).1 ss).2)[i1 + 1]?
        = _
      simp only [List.getElem?_cons_succ]
      exact ih _ stF hq i1 (by simpa using hi)

/-! ### The character dictionary: keys and id range -/

theorem range'_snoc (n : Nat) : ∀ s : Nat, List.range' s n ++ [s + n] = List.range' s (n + 1) := by
  induction n with
  | zero => intro s; simp [List.range']
  | succ n ih =>
    intro s
    rw [List.range'_succ, List.range'_succ, List.cons_append]
    rw [show s + (n + 1) = (s + 1) + n by omega]
    rw [ih (s + 1)]

theorem charStep_keys (st : CharSt) (c : Char) :
    ((charStep st c).1).dict.map Prod.fst =
      if c ∈ st.dict.map Prod.fst then st.dict.map Prod.fst
      else st.dict.map Prod.fst ++ [c] := by
  rcases ha : alookup st.dict c with _ | j
  · have hm : c ∉ st.dict.map Prod.fst := alookup_eq_none.1 ha
    simp [charStep, ha, hm]
  · have hm : c ∈ st.dict.map Prod.fst := alookup_isSome.1 (by rw [ha]; rfl)
    simp [charStep, ha, hm]

theorem charStep_inv {st : CharSt} (c : Char)
    (h1 : st.nextId = 3 + st.dict.length)
    (h2 : st.dict.map Prod.snd = List.range' 3 st.dict.length) :
    ((charStep st c).1.nextId = 3 + (charStep st c).1.dict.length) ∧
      ((charStep st c).1.dict.map Prod.snd = List.range' 3 (charStep st c).1.dict.length) := by
  rcases ha : alookup st.dict c with _ | j
  · constructor
    · simp only [charStep, ha, List.length_append, List.length_cons, List.length_nil]
      omega
    · simp only [charStep, ha, List.map_append, List.length_append, List.length_cons,
        List.length_nil, List.map_cons, List.map_nil, h2]
      rw [show st.dict.length + (0 + 1) = st.dict.length + 1 by omega, ← range'_snoc, h1]
  · simp [charStep, ha, h1, h2]

theorem charsOf_keys (cs : List Char) : ∀ st : CharSt,
    ((charsOf st cs).1).dict.map Prod.fst = dedupFAux (st.dict.map Prod.fst) cs := by
  induction cs with
  | nil => intro st; rfl
  | cons c cs ih =>
    intro st
    show ((charsOf (charStep st c).1 cs).1).dict.map Prod.fst = _
    rw [ih, charStep_keys]
    simp only [dedupFAux]

theorem charsOf_inv (cs : List Char) : ∀ st : CharSt,
    st.nextId = 3 + st.dict.length →
    st.dict.map Prod.snd = List.range' 3 st.dict.length →
    ((charsOf st cs).1.nextId = 3 + (charsOf st cs).1.dict.length) ∧
      ((charsOf st cs).1.dict.map Prod.snd = List.range' 3 (charsOf st cs).1.dict.length) := by
  induction cs with
  | nil => intro st h1 h2; exact ⟨h1, h2⟩
  | cons c cs ih =>
    intro st h1 h2
    obtain ⟨g1, g2⟩ := charStep_inv c h1 h2
    exact ih _ g1 g2

theorem charWords_keys (ws : List String) : ∀ st : CharSt,
    ((charWords st ws).1).dict.map Prod.fst =
      dedupFAux (st.dict.map Prod.fst) (ws.flatMap String.data) := by
  induction ws with
  | nil => intro st; simp [charWords, dedupFAux]
  | cons w ws ih =>
    intro st
    show ((charWords (charWord st w).1 ws).1).dict.map Prod.fst = _
    rw [ih, List.flatMap_cons, dedupFAux_append]
    have : ((charWord st w).1).dict.map Prod.fst =
        dedupFAux (st.dict.map Prod.fst) w.data := charsOf_keys w.data st
    rw [this]

theorem charWords_inv (ws : List String) : ∀ st : CharSt,
    st.nextId = 3 + st.dict.length →
    st.dict.map Prod.snd = List.range' 3 st.dict.length →
    ((charWords st ws).1.nextId = 3 + (charWords st ws).1.dict.length) ∧
      ((charWords st ws).1.dict.map Prod.snd
        = List.range' 3 (charWords st ws).1.dict.length) := by
  induction ws with
  | nil => intro st h1 h2; exact ⟨h1, h2⟩
  | cons w ws ih =>
    intro st h1 h2
    obtain ⟨g1, g2⟩ := charsOf_inv w.data st h1 h2
    exact ih _ g1 g2

theorem charSents_keys (SL WL : Nat) (ss : List (List String)) : ∀ st : CharSt,
    ((charSents SL WL st ss).1).dict.map Prod.fst =
      dedupFAux (st.dict.map Prod.fst) (charStream ss) := by
  induction ss with
  | nil => intro st; simp [charSents, charStream, dedupFAux]
  | cons s ss ih =>
    intro st
    show ((charSents SL WL (charSent SL WL st s).1 ss).1).dict.map Prod.fst = _
    rw [ih]
    have hs : ((charSent SL WL st s).1).dict.map Prod.fst =
        dedupFAux (st.dict.map Prod.fst) (s.flatMap String.data) := by
      rw [charSent_fst]
      exact charWords_keys s st
    rw [hs, ← dedupFAux_append]
    simp [charStream]

theorem charSents_inv (SL WL : Nat) (ss : List (List String)) : ∀ st : CharSt,
    st.nextId = 3 + st.dict.length →
    st.dict.map Prod.snd = List.range' 3 st.dict.length →
    ((charSents SL WL st ss).1.nextId = 3 + (charSents SL WL st ss).1.dict.length) ∧
      ((charSents SL WL st ss).1.dict.map Prod.snd
        = List.range' 3 (charSents SL WL st ss).1.dict.length) := by
  induction ss with
  | nil => intro st h1 h2; exact ⟨h1, h2⟩
  | cons s ss ih =>
    intro st h1 h2
    have hfst := charSent_fst SL WL st s
    obtain ⟨g1, g2⟩ := charWords_inv s st h1 h2
    exact ih _ (by rw [hfst]; exact g1) (by rw [hfst]; exact g2)

theorem create_dict_keys (sents : List (List String)) (SL WL : Nat) :
    ((create_char_features sents SL WL).1).dict.map Prod.fst = dedupF (charStream sents) :=
  charSents_keys SL WL sents ⟨[], 3⟩

/-! ### Claims C7, C8, C2 -/

/-- C7: `create_char_features` assigns character ids starting at 3 in
first-encounter order of its single pass, keeps 0 for padding and 1, 2 as
the word sentinels, and encodes every word as `[1] + char ids + [2]`
before per-word padding. -/
theorem conll_C7 (sents : List (List String)) (SL WL : Nat) : C7Prop sents SL WL := by
  simp only [C7Prop]
  refine ⟨?_, ?_, ?_, ?_, ?_⟩
  · rw [create_dict_keys]
    exact nodup_dedupF _
  · intro c
    rw [create_dict_keys]
    exact mem_dedupF
  · rw [create_dict_keys]
    exact pairwise_indexOf_dedupF _
  · exact (charSents_inv SL WL sents ⟨[], 3⟩ (by rfl) (by rfl)).2
  · intro i hi hlen
    have := charSents_getElem SL WL sents ⟨[], 3⟩ _ (DictLE.rfl _) i hi
    rw [create_char_features, this, if_neg (by omega)]

/-- Witness for C7 at a concrete corpus. -/
theorem conll_C7_witness : C7Prop [["ab"], ["ca"]] 3 4 :=
  conll_C7 [["ab"], ["ca"]] 3 4

/-- C8: the returned 3-d array always has shape
`(num_sentences, sentence_length, word_length)`. -/
theorem conll_C8 (sents : List (List String)) (SL WL : Nat) :
    (create_char_features sents SL WL).2.length = sents.length ∧
      ∀ m ∈ (create_char_features sents SL WL).2,
        m.length = SL ∧ ∀ row ∈ m, row.length = WL :=
  ⟨charSents_snd_length SL WL sents ⟨[], 3⟩, charSents_shape SL WL sents ⟨[], 3⟩⟩

/-- Witness for C8 at a concrete corpus with a long and an empty
sentence. -/
theorem conll_C8_witness :
    (create_char_features [["ab", "cde", "f"], []] 2 3).2.length = 2 ∧
      ∀ m ∈ (create_char_features [["ab", "cde", "f"], []] 2 3).2,
        m.length = 2 ∧ ∀ row ∈ m, row.length = 3 :=
  conll_C8 [["ab", "cde", "f"], []] 2 3

/-- Counterexample to C2 as stated: on a sentence of three words with
`sentence_length = 2`, the output keeps the first two word rows
`[[1,3,4,2],[1,5,6,2]]`; it is not the last two rows of the stacked
matrix `[[1,3,4,2],[1,5,6,2],[1,7,8,2]]`, which the claimed
truncation-from-the-front would produce. -/
theorem conll_C2_counterexample :
    (create_char_features [["ab", "cd", "ef"]] 2 4).2 = [[[1, 3, 4, 2], [1, 5, 6, 2]]] ∧
      (create_char_features [["ab", "cd", "ef"]] 2 4).2 ≠
        [([[1, 3, 4, 2], [1, 5, 6, 2], [1, 7, 8, 2]] : List (List Nat)).drop (3 - 2)] :=
  ⟨by decide, by decide⟩

/-- C2 amended: a sentence with more words than `sentence_length` is
truncated from the back: `char_sents[:sentence_length]` keeps the first
`sentence_length` word rows and drops the trailing words. -/
theorem conll_C2_amended (sents : List (List String)) (SL WL i : Nat)
    (hi : i < sents.length) (h : SL < (sents.get ⟨i, hi⟩).length) :
    (create_char_features sents SL WL).2[i]? = some
      (((sents.get ⟨i, hi⟩).take SL).map
        (encodeWord (create_char_features sents SL WL).1.dict WL)) := by
  have := charSents_getElem SL WL sents ⟨[], 3⟩ _ (DictLE.rfl _) i hi
  rw [create_char_features, this, if_pos h]

/-- Witness for the amended C2: the three-word sentence keeps its first
two encoded word rows. -/
theorem conll_C2_witness :
    (create_char_features [["ab", "cd", "ef"]] 2 4).2[0]? =
      some [[1, 3, 4, 2], [1, 5, 6, 2]] :=
  (conll_C2_amended [["ab", "cd", "ef"]] 2 4 0 (by decide) (by decide)).trans (by decide)

/-! ### Lemmas about the feature assembler -/

theorem mapOpt_eq_map {β γ : Type} (dflt : γ) {f : β → Option γ} {l : List β}
    (h : ∀ x ∈ l, (f x).isSome) :
    mapOpt f l = some (l.map (fun x => (f x).getD dflt)) := by
  induction l with
  | nil => rfl
  | cons x xs ih =>
    obtain ⟨y, hy⟩ := Option.isSome_iff_exists.1 (h x (List.mem_cons_self x xs))
    have hxs := ih (fun z hz => h z (List.mem_cons_of_mem x hz))
    simp [mapOpt, hy, hxs]

theorem sentences_to_ints_fst (texts : List (List String)) (lc : Bool) :
    (sentences_to_ints texts lc).1 = some (texts.map (rowIds (vocabOf texts lc) lc)) := by
  have hinner : ∀ sen ∈ texts,
      mapOpt (fun w => alookup (vocabOf texts lc) (norm lc w)) sen =
        some (rowIds (vocabOf texts lc) lc sen) := by
    intro sen hsen
    apply mapOpt_eq_map 0
    intro w hw
    apply alookup_isSome.2
    apply (mem_vocab_keys texts lc (norm lc w)).2
    simp only [stream, List.mem_flatMap]
    exact ⟨sen, hsen, List.mem_map.2 ⟨w, hw, rfl⟩⟩
  show mapTokens (vocabOf texts lc) lc texts = _
  rw [mapTokens]
  rw [mapOpt_eq_map [] (fun sen hsen => by rw [hinner sen hsen]; rfl)]
  congr 1
  apply List.map_congr_left
  intro sen hsen
  rw [hinner sen hsen]
  rfl

theorem sentences_to_ints_snd (texts : List (List String)) (lc : Bool) :
    (sentences_to_ints texts lc).2 = vocabOf texts lc := rfl

theorem foldl_min_const {α : Type} (rs : List (List α)) (n : Nat)
    (h : ∀ t ∈ rs, t.length = n) : rs.foldl (fun m t => min m t.length) n = n := by
  induction rs with
  | nil => rfl
  | cons t rs ih =>
    rw [List.foldl_cons, h t (List.mem_cons_self t rs), Nat.min_self]
    exact ih (fun u hu => h u (List.mem_cons_of_mem t hu))

theorem minRowLen_const {α : Type} {r : List α} {rs : List (List α)} {n : Nat}
    (h : ∀ s ∈ r :: rs, s.length = n) : minRowLen (r :: rs) = n := by
  show rs.foldl (fun m t => min m t.length) r.length = n
  rw [h r (List.mem_cons_self r rs)]
  exact foldl_min_const rs n (fun u hu => h u (List.mem_cons_of_mem r hu))

theorem filterMap_getElem_of_lt {α : Type} (d : α) (ts : List (List α)) (k : Nat)
    (h : ∀ r ∈ ts, k < r.length) :
    ts.filterMap (fun r => r[k]?) = ts.map (fun r => r.getD k d) := by
  induction ts with
  | nil => rfl
  | cons r rs ih =>
    have hk := h r (List.mem_cons_self r rs)
    have hrs := ih (fun u hu => h u (List.mem_cons_of_mem r hu))
    simp [List.getElem?_eq_getElem hk, List.getD_eq_getElem, hrs]

theorem col_eq_map {ts : List (List (List String))} {k : Nat}
    (h3 : ∀ s ∈ ts, s.length = 3) (hk : k < 3) :
    col k ts = ts.map (fun s => s.getD k []) := by
  cases ts with
  | nil => simp [col, pyZip, minRowLen]
  | cons r rs =>
    have hml : minRowLen (r :: rs) = 3 := minRowLen_const h3
    rw [col, pyZip, hml]
    have hsel : ((List.range 3).map
        (fun j => (r :: rs).filterMap (fun row => row[j]?))).getD k [] =
        (r :: rs).filterMap (fun row => row[k]?) := by
      have hlen : k < ((List.range 3).map
          (fun j => (r :: rs).filterMap (fun row => row[j]?))).length := by
        simpa using hk
      rw [List.getD_eq_getElem _ _ hlen, List.getElem_map]
      congr 1
      simp [List.getElem_range]
    rw [hsel]
    exact filterMap_getElem_of_lt [] (r :: rs) k
      (fun row hrow => by rw [h3 row hrow]; exact hk)

theorem create_char_features_length (sents : List (List String)) (SL WL : Nat) :
    (create_char_features sents SL WL).2.length = sents.length :=
  charSents_snd_length SL WL sents ⟨[], 3⟩

theorem itersOf_wrapIters (f : TaggedTextSequence) (rest : List TaggedTextSequence) :
    itersOf (wrapIters f rest) = f :: rest := by
  cases rest with
  | nil => rfl
  | cons a l => rfl

theorem getElem?_double_map {α β γ : Type} (d : α) (f : α → β) (g : β → γ) (l : List α)
    (i : Nat) (h : i < l.length) :
    ((l.map f).map g)[i]? = some (g (f (l.getD i d))) := by
  rw [List.getElem?_map, List.getElem?_map, List.getElem?_eq_getElem h,
    List.getD_eq_getElem _ _ h]
  rfl

/-! ### Claim C4 -/

/-- C4: `gen_iterators` builds the token and label vocabularies over the
concatenation of the train and test sentences, partitions every produced
feature stream at the original train sentence count, and for a given row
index every feature stream refers to the same sentence of the
concatenated corpus. -/
theorem conll_C4 (cfg : CONLL2000) (train_set test_set : List (List (List String)))
    (w2v_dict : String → Option (List Int)) (emb_size : Nat)
    (htr : ∀ s ∈ train_set, s.length = 3) (hte : ∀ s ∈ test_set, s.length = 3) :
    C4Prop cfg train_set test_set w2v_dict emb_size := by
  have hcol : ∀ k, k < 3 → col k train_set ++ col k test_set =
      (train_set ++ test_set).map (fun s => s.getD k []) := by
    intro k hk
    rw [col_eq_map htr hk, col_eq_map hte hk, List.map_append]
  have h0 := hcol 0 (by omega)
  have h1 := hcol 1 (by omega)
  have h2 := hcol 2 (by omega)
  have hrow : ∀ (ls : List (List String)) (lc : Bool) (SL i : Nat),
      i < ls.length →
      ((ls.map (rowIds (vocabOf ls lc) lc)).map (padRow SL))[i]? =
        some (padRow SL (rowIds (vocabOf ls lc) lc (ls.getD i []))) :=
    fun ls lc SL i hi => getElem?_double_map [] _ _ ls i hi
  obtain ⟨SL, VS, up, uc, cl, uw⟩ := cfg
  simp only [C4Prop]
  cases up <;> cases uc <;> cases uw <;>
    refine ⟨?_, ?_, ?_, ?_, ?_, ?_, ?_, ⟨?_, ?_, ?_, ?_⟩, ?_⟩ <;>
    first
      | (intro i hi
         exact ⟨hrow _ false SL i hi,
           hrow _ false SL i (by simpa using hi),
           hrow _ true SL i (by simpa using hi)⟩)
      | simp [gen_iterators, get_paddedXY_sequence, h0, h1, h2,
          sentences_to_ints_fst, sentences_to_ints_snd,
          itersOf_wrapIters, wrapIters, itersOf, create_char_features_length]

/-- Witness for C4 on a concrete one-sentence train set and one-sentence
test set with all optional streams enabled. -/
theorem conll_C4_witness :
    (∀ s ∈ [[["a", "b"], ["DT", "NN"], ["B", "I"]]], s.length = 3) ∧
      (∀ s ∈ [[["c"], ["VB"], ["O"]]], s.length = 3) ∧
      C4Prop ⟨2, 7, true, true, 3, false⟩
        [[["a", "b"], ["DT", "NN"], ["B", "I"]]] [[["c"], ["VB"], ["O"]]]
        (fun _ => none) 2 :=
  ⟨by decide, by decide,
    conll_C4 ⟨2, 7, true, true, 3, false⟩
      [[["a", "b"], ["DT", "NN"], ["B", "I"]]] [[["c"], ["VB"], ["O"]]]
      (fun _ => none) 2 (by decide) (by decide)⟩

/-! ### Claim C10 -/

/-- C10: `vocab_size` has no effect on the output: two runs of
`gen_iterators` differing only in `vocab_size` produce identical results
(vocabularies, arrays, iterators), and the token vocabulary contains
every distinct token of the concatenated corpus, with no truncation. -/
theorem conll_C10 (c1 c2 : CONLL2000) (train_set test_set : List (List (List String)))
    (w2v_dict : String → Option (List Int)) (emb_size : Nat)
    (h1 : c1.sentence_length = c2.sentence_length) (h2 : c1.use_pos = c2.use_pos)
    (h3 : c1.use_chars = c2.use_chars) (h4 : c1.chars_len = c2.chars_len)
    (h5 : c1.use_w2v = c2.use_w2v) :
    gen_iterators c1 train_set test_set w2v_dict emb_size =
      gen_iterators c2 train_set test_set w2v_dict emb_size ∧
    ∀ w, w ∈ stream (col 0 train_set ++ col 0 test_set) false →
      ∃ i, (w, i) ∈ (gen_iterators c1 train_set test_set w2v_dict emb_size).token_vocab := by
  constructor
  · obtain ⟨sl1, vs1, up1, uc1, cl1, uw1⟩ := c1
    obtain ⟨sl2, vs2, up2, uc2, cl2, uw2⟩ := c2
    simp only at h1 h2 h3 h4 h5
    subst h1; subst h2; subst h3; subst h4; subst h5
    rfl
  · intro w hw
    have hkeys : w ∈ (vocabOf (col 0 train_set ++ col 0 test_set) false).map Prod.fst :=
      (mem_vocab_keys _ false w).2 hw
    obtain ⟨p, hp, hpw⟩ := List.mem_map.1 hkeys
    refine ⟨p.2, ?_⟩
    show (w, p.2) ∈ vocabOf (col 0 train_set ++ col 0 test_set) false
    rw [← hpw]
    exact hp

/-- Witness for C10: two configurations differing only in `vocab_size`
on a concrete corpus. -/
theorem conll_C10_witness :
    ((⟨2, 5, true, true, 3, false⟩ : CONLL2000).sentence_length =
        (⟨2, 9000, true, true, 3, false⟩ : CONLL2000).sentence_length) ∧
      (gen_iterators ⟨2, 5, true, true, 3, false⟩
          [[["a", "b"], ["DT", "NN"], ["B", "I"]]] [[["c"], ["VB"], ["O"]]]
          (fun _ => none) 2 =
        gen_iterators ⟨2, 9000, true, true, 3, false⟩
          [[["a", "b"], ["DT", "NN"], ["B", "I"]]] [[["c"], ["VB"], ["O"]]]
          (fun _ => none) 2) :=
  ⟨rfl,
    (conll_C10 ⟨2, 5, true, true, 3, false⟩ ⟨2, 9000, true, true, 3, false⟩
      [[["a", "b"], ["DT", "NN"], ["B", "I"]]] [[["c"], ["VB"], ["O"]]]
      (fun _ => none) 2 rfl rfl rfl rfl rfl).1⟩

/-- Witness for C6 on a concrete block of two lines followed by a blank
line. -/
theorem conll_C6_witness :
    (isBlank "" = true) ∧ (∀ l ∈ ["a b", "c d"], isBlank l = false) ∧
      ((parse_entries (["a b", "c d"] ++ "" :: []) =
        (if 1 < (["a b", "c d"] : List String).length
          then [pyZip (["a b", "c d"].map splitFields)] else []) ++ parse_entries []
        ∧ parse_entries ["a b", "c d"] = [])) :=
  ⟨by decide, by decide, conll_C6 ["a b", "c d"] [] "" (by decide) (by decide)⟩

end Conll
